import Mathlib

/-!
Verification development for the nanotron decoder-layer core
(`src/nanotron/models/qwen.py`) and the distributed invariant checker
(`src/nanotron/sanity_checks.py`).

Conventions of the shallow embedding:

* Tensors are nested lists over `ℚ`.  A token's hidden state is a `List ℚ`
  (one row), a batch of tokens is a `List (List ℚ)`, a weight matrix is a
  `List (List ℚ)` (list of rows).
* Floating-point transcendentals are kept abstract: the exponential used by
  `F.softmax` and `torch.sigmoid` is a parameter `rexp : ℚ → ℚ` (theorems
  that need it assume `∀ q, 0 < rexp q`, the one analytic property of `exp`
  the code relies on), and the configurable activation `ACT2FN[hidden_act]`
  of `Qwen2MLP` is a parameter `act : ℚ → ℚ`.  Everything else is exact.
* Python loops over tensors become structural recursions / folds; the
  dispatch/combine index gymnastics (`hidden_states[mask]`,
  `combined_output[mask] += out`, `(ri == e).nonzero`) are modelled row by
  row in token order, which is exactly the order PyTorch produces.
-/

/-! ### Rows, matrices and the dense feed-forward (`Qwen2MLP`) -/

/-- Row vector of rationals (one token's hidden state, one weight row, ...). -/
abbrev V : Type := List ℚ

/-- Elementwise sum of two rows (`torch +` on same-shape tensors). -/
def vadd (a b : V) : V := List.zipWith (· + ·) a b

/-- Scalar multiple of a row (`weight * token_row`). -/
def smulV (c : ℚ) (x : V) : V := x.map (fun q => c * q)

/-- All-zero row of the same shape as `x` (`torch.zeros_like` of one row). -/
def vzeroLike (x : V) : V := x.map (fun _ => (0 : ℚ))

/-- Dot product of two rows. -/
def dot (a b : List ℚ) : ℚ := (List.zipWith (· * ·) a b).sum

/-- Matrix-vector product: a linear layer applied to one token
(`nn.Linear` without bias, as used by the router and the projections). -/
def matvec (m : List (List ℚ)) (x : V) : V := m.map (fun row => dot row x)

/-- Weights of one `Qwen2MLP`: the fused gate/up projection and the down
projection (`qwen.py` lines 238-293). -/
structure MLPWeights where
  gate_up_proj : List (List ℚ)
  down_proj : List (List ℚ)

instance : Inhabited MLPWeights := ⟨⟨[], []⟩⟩

/-- Forward pass of `Qwen2MLP.forward` (qwen.py lines 282-293) on one token:
`merged = gate_up_proj(x)`; split `merged` in two halves `gate`/`up`
(`torch.split(merged, merged.shape[-1] // 2)`); `down_proj(act(gate) * up)`. -/
def mlpForward (act : ℚ → ℚ) (w : MLPWeights) (x : V) : V :=
  let merged := matvec w.gate_up_proj x
  let gate_states := merged.take (merged.length / 2)
  let up_states := merged.drop (merged.length / 2)
  matvec w.down_proj (List.zipWith (fun g u => act g * u) gate_states up_states)

/-! ### Router: `torch.topk` and `F.softmax`

`torch.topk(logits, k, dim=-1)` returns the `k` largest entries of each row
together with their indices, sorted by decreasing value (ties keep the
lower index first).  We model it with a stable insertion sort on
(value, index) pairs followed by `take k`. -/

/-- Insert a (value, index) pair into a descending-sorted list, before any
entry of equal value (stability: together with `sortTopkDesc` folding from
the right this keeps equal values in index order). -/
def insertDesc (p : ℚ × Nat) : List (ℚ × Nat) → List (ℚ × Nat)
  | [] => [p]
  | q :: rest => if q.1 ≤ p.1 then p :: q :: rest else q :: insertDesc p rest

/-- Stable descending insertion sort on (value, index) pairs. -/
def sortTopkDesc : List (ℚ × Nat) → List (ℚ × Nat)
  | [] => []
  | p :: rest => insertDesc p (sortTopkDesc rest)

/-- Model of `torch.topk(xs, k)` on one row: the `k` largest (value, index)
pairs in decreasing value order. -/
def topk (k : Nat) (xs : List ℚ) : List (ℚ × Nat) :=
  (sortTopkDesc (xs.enum.map (fun p => (p.2, p.1)))).take k

/-- Model of `F.softmax` on one row: `exp xᵢ / Σ exp xⱼ` (the numerically
stabilising max-shift PyTorch applies cancels out exactly). -/
def softmax (rexp : ℚ → ℚ) (xs : List ℚ) : List ℚ :=
  xs.map (fun x => rexp x / (xs.map rexp).sum)

/-- Model of `torch.sigmoid`: `1 / (1 + exp (-x))`. -/
def sigmoid (rexp : ℚ → ℚ) (x : ℚ) : ℚ := 1 / (1 + rexp (-x))

/-! ### The MoE layer (`Qwen2MoELayer`) -/

/-- Parameters of one `Qwen2MoELayer` (qwen.py lines 296-366): the router's
weight matrix (one row per expert), `top_k`, the local expert MLPs, and the
optional shared expert with its scalar gate.  `num_local_experts` is
`experts.length` (the embedding models the single-rank case
`expert_parallel_size == 1`, as the source's dispatcher does). -/
structure MoELayer where
  router : List (List ℚ)
  num_experts_per_token : Nat
  experts : List MLPWeights
  enable_shared_expert : Bool
  shared_expert : MLPWeights
  shared_expert_gate : List (List ℚ)

/-- Model of `Qwen2MoELayer._compute_router_probabilities` (qwen.py lines
368-378) on one token: logits from the router, top-k, then softmax applied
only to the k selected logits.  Returns (routing_weights, routing_indices). -/
def computeRouterProbabilities (rexp : ℚ → ℚ) (router : List (List ℚ)) (k : Nat)
    (x : V) : List ℚ × List Nat :=
  let router_logits := matvec router x
  let tk := topk k router_logits
  (softmax rexp (tk.map Prod.fst), tk.map Prod.snd)

/-- First slot `s` with `idx[s] = e`, i.e. the `k_positions` entry produced by
`(routing_indices == expert_idx).nonzero` for one token (`torch.topk` indices
are pairwise distinct within a row, so the slot is unique when it exists). -/
def firstSlot (idx : List Nat) (e : Nat) : Option Nat :=
  match idx with
  | [] => none
  | a :: rest => if a = e then some 0 else (firstSlot rest e).map (fun s => s + 1)

/-- Per-token boolean mask `(routing_indices == expert_idx).any(dim=-1)`
(qwen.py line 396 and line 424). -/
def expertMask (ri : List (List Nat)) (e : Nat) : List Bool :=
  ri.map (fun idx => idx.contains e)

/-- Boolean-mask row gather `tensor[mask]`: keep the rows at the positions
where the mask is true, in order. -/
def maskGather {α : Type} : List Bool → List α → List α
  | true :: ms, x :: xs => x :: maskGather ms xs
  | false :: ms, _ :: xs => maskGather ms xs
  | _, _ => []

/-- Per-expert routing weights `routing_weights[token_positions, k_positions]`
(qwen.py lines 400-402): one weight per token that selected expert `e`, in
token order, reading the weight at the slot where that token's top-k indices
hit `e`. -/
def expertWeights (rw : List (List ℚ)) (ri : List (List Nat)) (e : Nat) : List ℚ :=
  (rw.zip ri).filterMap (fun p => (firstSlot p.2 e).map (fun s => p.1.getD s 0))

/-- Rows dispatched to one expert (the body of the loop in
`Qwen2MoELayer._dispatch_tokens`, qwen.py lines 394-408): the rows of the
tokens that selected expert `e`, each scaled by its routing weight
(`tokens_for_expert * expert_weights`). -/
def dispatchExpert (hs : List V) (rw : List (List ℚ)) (ri : List (List Nat))
    (e : Nat) : List V :=
  List.zipWith (fun x w => smulV w x) (maskGather (expertMask ri e) hs)
    (expertWeights rw ri e)

/-- Model of `Qwen2MoELayer._dispatch_tokens` (qwen.py lines 380-410): the
dispatched inputs for each of the `num_local_experts` experts.  (The
`expert_counts` the source also returns are the lengths of these lists.) -/
def dispatchTokens (hs : List V) (rw : List (List ℚ)) (ri : List (List Nat))
    (num_local_experts : Nat) : List (List V) :=
  (List.range num_local_experts).map (dispatchExpert hs rw ri)

/-- Per-expert compute loop of `Qwen2MoELayer._core_forward` (qwen.py lines
438-446): an expert with zero dispatched tokens is skipped and contributes an
empty tensor; otherwise its MLP runs on the dispatched rows. -/
def expertOutputs (act : ℚ → ℚ) (experts : List MLPWeights)
    (dispatched_inputs : List (List V)) : List (List V) :=
  dispatched_inputs.enum.map (fun p =>
    if p.2.isEmpty then [] else p.2.map (mlpForward act (experts.getD p.1 default)))

/-- Row scatter-add `combined_output[expert_mask] += expert_output`
(qwen.py line 425): add the rows of `ys` into the rows of `acc` at the
positions where the mask is true, in order. -/
def scatterAddRows : List Bool → List V → List V → List V
  | [], acc, _ => acc
  | _ :: _, [], _ => []
  | true :: ms, a :: acc, ys =>
    match ys with
    | [] => a :: scatterAddRows ms acc []
    | y :: ys => vadd a y :: scatterAddRows ms acc ys
  | false :: ms, a :: acc, ys => a :: scatterAddRows ms acc ys

/-- Model of `Qwen2MoELayer._combine_expert_outputs` (qwen.py lines 412-427):
start from zeros of the original shape, and for each expert (skipping those
with an empty output) scatter-add its output into the rows of the tokens
that selected it. -/
def combineExpertOutputs (expert_outputs : List (List V)) (ri : List (List Nat))
    (hs : List V) : List V :=
  expert_outputs.enum.foldl
    (fun acc p =>
      if p.2.isEmpty then acc else scatterAddRows (expertMask ri p.1) acc p.2)
    (hs.map vzeroLike)

/-- Model of `Qwen2MoELayer._core_forward` (qwen.py lines 429-457):
route, dispatch, per-expert compute, combine, and (when enabled) add the
sigmoid-gated shared-expert contribution. -/
def moeCoreForward (rexp act : ℚ → ℚ) (L : MoELayer) (hidden_states : List V) :
    List V :=
  let probs := hidden_states.map
    (computeRouterProbabilities rexp L.router L.num_experts_per_token)
  let routing_weights := probs.map Prod.fst
  let routing_indices := probs.map Prod.snd
  let dispatched_inputs :=
    dispatchTokens hidden_states routing_weights routing_indices L.experts.length
  let expert_outs := expertOutputs act L.experts dispatched_inputs
  let output := combineExpertOutputs expert_outs routing_indices hidden_states
  if L.enable_shared_expert then
    List.zipWith (fun o x =>
      vadd o (smulV (sigmoid rexp ((matvec L.shared_expert_gate x).getD 0 0))
        (mlpForward act L.shared_expert x))) output hidden_states
  else output

/-! ### Position ids and the packed causal mask (`Qwen2Attention.forward`) -/

/-- Model of `position_ids.masked_fill(position_ids == -1, 0)`
(qwen.py line 201). -/
def maskedFillNeg1 (position_ids : List Int) : List Int :=
  position_ids.map (fun p => if p = -1 then 0 else p)

/-- Position ids as returned by `Qwen2Attention.forward` (qwen.py lines
200-202 and 235): `-1` padding remapped to `0`, then flattened
(`.view(-1)` of the `[batch_size, seq_length]` tensor). -/
def qwen2AttnPositionIds (position_ids : List (List Int)) : List Int :=
  (position_ids.map maskedFillNeg1).flatten

/-- Position ids returned by `Qwen2DecoderLayer._core_forward` (qwen.py line
529): the decoder layer returns `output["position_ids"]` from its attention
module unchanged, so the next layer receives the remapped flat tensor. -/
def qwen2DecoderPositionIds (position_ids : List (List Int)) : List Int :=
  qwen2AttnPositionIds position_ids

/-- Model of `torch.where(position_ids == 0)[0]` (qwen.py line 221): the
indices holding position `0`, in increasing order. -/
def startIndices (position_ids : List Int) : List Nat :=
  (List.range position_ids.length).filter
    (fun i => decide (position_ids.getD i 1 = 0))

/-- Model of `cu_seqlens` (qwen.py lines 222-224): the position-zero
boundary offsets followed by the total length. -/
def cuSeqlens (position_ids : List Int) : List Nat :=
  startIndices position_ids ++ [position_ids.length]

/-- One iteration of the mask-filling loop (qwen.py lines 226-229): assign
the lower-triangular pattern on the square block `[a, b) × [a, b)`, leaving
the rest of the matrix unchanged. -/
def fillTril (m : Nat → Nat → Bool) (a b : Nat) : Nat → Nat → Bool :=
  fun i j => if a ≤ i ∧ i < b ∧ a ≤ j ∧ j < b then decide (j ≤ i) else m i j

/-- Model of `get_attention_mask` (qwen.py lines 219-230): start from the
zero matrix and fill a lower-triangular block for each consecutive pair of
`cu_seqlens` offsets.  `attentionMask pos i j` is entry `[i][j]` of the
boolean mask (the matrix is `pos.length × pos.length`; the model is the
constant `false` outside that square). -/
def attentionMask (position_ids : List Int) : Nat → Nat → Bool :=
  ((cuSeqlens position_ids).zip (cuSeqlens position_ids).tail).foldl
    (fun m p => fillTril m p.1 p.2) (fun _ _ => false)

/-! ### Sliding-window condition and the actual attention call
(`CoreAttention.forward`) -/

/-- Sliding-window-related fields of `Qwen2Config` as read by
`CoreAttention.forward`. -/
structure SlidingWindowConfig where
  use_sliding_window : Bool
  sliding_window : Option Nat
  max_window_layers : Nat

/-- The condition of qwen.py lines 76-80: sliding window "should be applied"
when it is enabled, a window size is configured and the layer index is at or
beyond `max_window_layers`. -/
def slidingWindowCondition (cfg : SlidingWindowConfig) (layer_idx : Nat) : Bool :=
  cfg.use_sliding_window && cfg.sliding_window.isSome &&
    decide (cfg.max_window_layers ≤ layer_idx)

/-- The mask- and window-relevant arguments `CoreAttention.forward` actually
passes to the pluggable attention implementation. -/
structure AttentionCallArgs where
  attention_mask : Option (Nat → Nat → Bool)
  sliding_window : Option Nat

/-- Arguments of the `attention_func(...)` call in `CoreAttention.forward`
(qwen.py lines 104-117): the body of the sliding-window conditional (line 81)
is a bare `getattr` expression whose result is discarded, the call passes
`attention_mask=None` (line 109), and the `sliding_window=sliding_window`
keyword is commented out (line 112) — so whatever the configuration says,
the kernel receives neither the block-diagonal mask nor a window size. -/
def coreAttentionCallArgs (_cfg : SlidingWindowConfig) (_layer_idx : Nat) :
    AttentionCallArgs :=
  { attention_mask := none, sliding_window := none }

/-! ### The after-backward sanity check (`after_tbi_sanity_checks`) -/

/-- Classification of one gradient-buffer entry as observed by
`torch.isnan` / `torch.isinf`: a NaN, an infinity, or a finite value. -/
inductive GVal : Type where
  | nan : GVal
  | inf : GVal
  | val : ℚ → GVal
deriving DecidableEq

/-- Whether `torch.isnan` flags this entry. -/
def GVal.isNaN : GVal → Bool
  | .nan => true
  | _ => false

/-- Whether `torch.isinf` flags this entry. -/
def GVal.isInf : GVal → Bool
  | .inf => true
  | _ => false

/-- One named parameter as seen by the checker loop: whether it requires a
gradient, whether it is tied (in which case the loop replaces its name by the
tied full name, sanity_checks.py lines 139-143), and its `.grad` buffer. -/
structure ParamState where
  name : String
  requires_grad : Bool
  is_tied : Bool
  tied_full_name : String
  grad : Option (List GVal)

/-- Name used by the check for this parameter (sanity_checks.py lines
139-143). -/
def resolvedName (p : ParamState) : String :=
  if p.is_tied then p.tied_full_name else p.name

/-- Gradient chosen by sanity_checks.py lines 145-148: the grad-accumulator
buffer for the resolved name when an accumulator exists, else `param.grad`. -/
def gradOf (grad_accumulator : Option (String → List GVal)) (p : ParamState) :
    Option (List GVal) :=
  match grad_accumulator with
  | some get_buffer => some (get_buffer (resolvedName p))
  | none => p.grad

/-- Outcome of the check: success, the `TypeError` Python raises when
`torch.isnan` is applied to `None`, or the explicit `ValueError`. -/
inductive CheckOutcome : Type where
  | ok : CheckOutcome
  | typeError : CheckOutcome
  | valueError : String → CheckOutcome
deriving DecidableEq

/-- Body of the parameter loop of `after_tbi_sanity_checks`
(sanity_checks.py lines 135-157).  Parameters not requiring gradients are
skipped.  Note the source order: `torch.isnan(grad).any()` runs *before*
the `if grad is None` test, so a missing gradient raises `TypeError`
(`isnan(): argument 'input' must be Tensor, not NoneType`) and the
`log_rank(... is missing gradient ...)` branch (lines 152-157) is
unreachable. -/
def checkParamGrad (grad_accumulator : Option (String → List GVal))
    (p : ParamState) : CheckOutcome :=
  if p.requires_grad = false then .ok
  else
    match gradOf grad_accumulator p with
    | none => .typeError
    | some g =>
      if g.any GVal.isNaN || g.any GVal.isInf then
        .valueError ("Gradient is nan or inf for " ++ resolvedName p)
      else .ok

/-- The parameter loop itself: the first raised error aborts the loop
(later parameters are not examined). -/
def runAfterTbiLoop (grad_accumulator : Option (String → List GVal)) :
    List ParamState → CheckOutcome
  | [] => .ok
  | p :: rest =>
    match checkParamGrad grad_accumulator p with
    | .ok => runAfterTbiLoop grad_accumulator rest
    | e => e

/-- Model of `after_tbi_sanity_checks` (sanity_checks.py lines 125-157):
a no-op when `config.general.ignore_sanity_checks` is set, otherwise the
parameter loop. -/
def after_tbi_sanity_checks (ignore_sanity_checks : Bool)
    (grad_accumulator : Option (String → List GVal))
    (params : List ParamState) : CheckOutcome :=
  if ignore_sanity_checks then .ok else runAfterTbiLoop grad_accumulator params

/-! ### The cross-rank synchronization primitive
(`assert_tensor_synced_across_pg`) -/

/-- Model of `torch.testing.assert_close` on two flat tensors: same shape and
entrywise `|a - b| ≤ atol + rtol * |b|` (PyTorch's closeness criterion with
nonnegative dtype-dependent tolerances). -/
def torchAssertClose (rtol atol : ℚ) (a b : List ℚ) : Bool :=
  decide (a.length = b.length) &&
    (a.zip b).all (fun p => decide (|p.1 - p.2| ≤ atol + rtol * |p.2|))

/-- Model of `assert_tensor_synced_across_pg` (sanity_checks.py lines 19-37)
as observed on one rank.  `tensor` is this rank's tensor; `broadcast_result`
is what `dist.broadcast` writes into the freshly allocated buffer on a
non-reference rank (the reference rank's tensor).  On the reference rank the
code aliases `reference_tensor = tensor` and the broadcast, having this rank
as source, leaves it unchanged; the final `assert_close` then compares the
tensor with itself. -/
def assert_tensor_synced_across_pg (rtol atol : ℚ) (tensor : List ℚ)
    (broadcast_result : List ℚ) (my_rank reference_rank : Nat) : Bool :=
  let reference_tensor :=
    if my_rank = reference_rank then tensor else broadcast_result
  torchAssertClose rtol atol tensor reference_tensor

/-! ### Helper lemmas -/

/-- Pairs drawn from a list zipped with itself are diagonal. -/
lemma zip_self_eq {α : Type} (l : List α) : ∀ p ∈ l.zip l, p.1 = p.2 := by
  induction l with
  | nil => intro p hp; cases hp
  | cons x xs ih =>
    simp only [List.zip_cons_cons, List.mem_cons]
    rintro p (rfl | hp)
    · rfl
    · exact ih p hp

/-! ### C9: the synchronization primitive always passes on the reference rank -/

/-- C9: for every tensor and every process group, the cross-rank
synchronization check primitive passes on the reference rank itself,
regardless of the values held by the other ranks in the group (modelled by
an arbitrary `broadcast_result`): on that rank the reference tensor is the
rank's own tensor, and `assert_close` compares it with itself. -/
theorem sync_check_passes_on_reference_rank (rtol atol : ℚ)
    (tensor broadcast_result : List ℚ) (r : Nat)
    (hrtol : 0 ≤ rtol) (hatol : 0 ≤ atol) :
    assert_tensor_synced_across_pg rtol atol tensor broadcast_result r r = true := by
  unfold assert_tensor_synced_across_pg torchAssertClose
  simp only [if_pos rfl, Bool.and_eq_true, decide_eq_true_eq, List.all_eq_true]
  refine ⟨rfl, ?_⟩
  intro p hp
  have h := zip_self_eq tensor p hp
  rw [h]
  simp only [sub_self, abs_zero, decide_eq_true_eq]
  exact add_nonneg hatol (mul_nonneg hrtol (abs_nonneg _))

/-- Witness for C9 at a concrete tensor, tolerances and rank. -/
theorem sync_check_passes_on_reference_rank_witness :
    (0 : ℚ) ≤ 0 ∧
    assert_tensor_synced_across_pg 0 0 [1, 2, 3] [7, 7, 7] 0 0 = true :=
  ⟨le_refl 0, sync_check_passes_on_reference_rank 0 0 [1, 2, 3] [7, 7, 7] 0
    (le_refl 0) (le_refl 0)⟩

/-! ### C6: a NaN/Inf gradient raises immediately, naming the parameter -/

/-- C6: if every parameter before `p` passes its per-parameter check, `p`
requires gradients and `p`'s gradient buffer contains a NaN or infinite
entry, then `after_tbi_sanity_checks` raises the `ValueError` naming `p`
immediately — the result does not depend on the parameters after `p`, which
are never examined. -/
theorem after_backward_nan_grad_raises
    (grad_accumulator : Option (String → List GVal))
    (pre post : List ParamState) (p : ParamState) (g : List GVal)
    (hpre : ∀ q ∈ pre, checkParamGrad grad_accumulator q = .ok)
    (hreq : p.requires_grad = true)
    (hgrad : gradOf grad_accumulator p = some g)
    (hbad : (g.any GVal.isNaN || g.any GVal.isInf) = true) :
    after_tbi_sanity_checks false grad_accumulator (pre ++ p :: post) =
      .valueError ("Gradient is nan or inf for " ++ resolvedName p) := by
  unfold after_tbi_sanity_checks
  rw [if_neg (by simp)]
  induction pre with
  | nil =>
    have hcheck : checkParamGrad grad_accumulator p =
        .valueError ("Gradient is nan or inf for " ++ resolvedName p) := by
      simp [checkParamGrad, hreq, hgrad, hbad]
    simp [runAfterTbiLoop, hcheck]
  | cons q qs ih =>
    simp only [List.cons_append, runAfterTbiLoop]
    rw [hpre q (by simp)]
    exact ih (fun r hr => hpre r (by simp [hr]))

/-- Witness for C6: one parameter whose gradient buffer holds a single NaN. -/
theorem after_backward_nan_grad_raises_witness :
    (∀ q ∈ ([] : List ParamState), checkParamGrad none q = .ok) ∧
    after_tbi_sanity_checks false none
        ([] ++ ⟨"model.decoder.0.weight", true, false, "", some [GVal.nan]⟩ :: []) =
      .valueError ("Gradient is nan or inf for " ++
        resolvedName ⟨"model.decoder.0.weight", true, false, "", some [GVal.nan]⟩) :=
  ⟨fun q hq => absurd hq (List.not_mem_nil q),
    after_backward_nan_grad_raises none [] []
      ⟨"model.decoder.0.weight", true, false, "", some [GVal.nan]⟩ [GVal.nan]
      (fun q hq => absurd hq (List.not_mem_nil q)) rfl rfl rfl⟩

/-! ### C7: a missing gradient does not get logged — the check crashes -/

/-- C7 (evaluation of the code at the failing input): a parameter that
requires gradients but has `grad = None` (and no gradient accumulator)
makes `after_tbi_sanity_checks` raise `TypeError` from
`torch.isnan(None)` — it does not log-and-continue, because the
`if grad is None` branch is only reached after `torch.isnan(grad)`. -/
theorem after_backward_missing_grad_crashes :
    after_tbi_sanity_checks false none
        [⟨"model.lm_head.weight", true, false, "", none⟩] = .typeError := rfl

/-! ### C4: the sliding-window restriction is computed but never applied -/

/-- C4 (evaluation of the code at the failing input): with
`use_sliding_window = True`, `sliding_window = 2` and
`max_window_layers = 0`, layer 0 satisfies the source's "sliding window
should be applied" condition, yet the attention implementation is invoked
with no sliding window and no attention mask at all, so the attendable set
is not restricted to `[i - window + 1, i]` intersected with the document. -/
theorem sliding_window_condition_ignored :
    slidingWindowCondition ⟨true, some 2, 0⟩ 0 = true ∧
    (coreAttentionCallArgs ⟨true, some 2, 0⟩ 0).sliding_window = none ∧
    (coreAttentionCallArgs ⟨true, some 2, 0⟩ 0).attention_mask = none :=
  ⟨rfl, rfl, rfl⟩

/-! ### C10: returned position ids are flat, remapped and sentinel-free -/

/-- C10: for well-formed input position ids (entries are `-1` or
nonnegative, as the data model specifies), the attention module returns the
flattened tensor with every `-1` replaced by `0`: all entries are
nonnegative, none equals `-1`, the decoder layer propagates exactly this
tensor to the next layer, and remapping it again is the identity — so no
layer after the first ever observes the `-1` sentinel. -/
theorem attn_position_ids_remapped (position_ids : List (List Int))
    (hwf : ∀ row ∈ position_ids, ∀ x ∈ row, x = -1 ∨ 0 ≤ x) :
    (∀ x ∈ qwen2AttnPositionIds position_ids, 0 ≤ x) ∧
    (∀ x ∈ qwen2AttnPositionIds position_ids, x ≠ -1) ∧
    qwen2DecoderPositionIds position_ids = qwen2AttnPositionIds position_ids ∧
    maskedFillNeg1 (qwen2AttnPositionIds position_ids) =
      qwen2AttnPositionIds position_ids := by
  have hmem : ∀ x ∈ qwen2AttnPositionIds position_ids,
      ∃ row ∈ position_ids, ∃ p ∈ row, x = if p = -1 then 0 else p := by
    intro x hx
    unfold qwen2AttnPositionIds at hx
    rw [List.mem_flatten] at hx
    obtain ⟨l, hl, hxl⟩ := hx
    rw [List.mem_map] at hl
    obtain ⟨row, hrow, hlrow⟩ := hl
    subst hlrow
    unfold maskedFillNeg1 at hxl
    rw [List.mem_map] at hxl
    obtain ⟨p, hp, hxp⟩ := hxl
    exact ⟨row, hrow, p, hp, hxp.symm⟩
  have hpos : ∀ x ∈ qwen2AttnPositionIds position_ids, 0 ≤ x := by
    intro x hx
    obtain ⟨row, hrow, p, hp, hxval⟩ := hmem x hx
    subst hxval
    rcases hwf row hrow p hp with h | h
    · rw [if_pos h]
    · by_cases hcase : p = -1
      · rw [if_pos hcase]
      · rw [if_neg hcase]; exact h
  have hne : ∀ x ∈ qwen2AttnPositionIds position_ids, x ≠ -1 := by
    intro x hx
    have := hpos x hx
    intro hcontra
    rw [hcontra] at this
    exact absurd this (by norm_num)
  refine ⟨hpos, hne, rfl, ?_⟩
  unfold maskedFillNeg1
  conv_rhs => rw [← List.map_id (qwen2AttnPositionIds position_ids)]
  exact List.map_congr_left (fun x hx => by rw [if_neg (hne x hx), id])

/-- Witness for C10 at a concrete packed batch with padding. -/
theorem attn_position_ids_remapped_witness :
    (∀ row ∈ [[(0 : Int), 1, 2, -1, -1]], ∀ x ∈ row, x = -1 ∨ 0 ≤ x) ∧
    ((∀ x ∈ qwen2AttnPositionIds [[(0 : Int), 1, 2, -1, -1]], 0 ≤ x) ∧
     (∀ x ∈ qwen2AttnPositionIds [[(0 : Int), 1, 2, -1, -1]], x ≠ -1) ∧
     qwen2DecoderPositionIds [[(0 : Int), 1, 2, -1, -1]] =
       qwen2AttnPositionIds [[(0 : Int), 1, 2, -1, -1]] ∧
     maskedFillNeg1 (qwen2AttnPositionIds [[(0 : Int), 1, 2, -1, -1]]) =
       qwen2AttnPositionIds [[(0 : Int), 1, 2, -1, -1]]) :=
  ⟨by decide, attn_position_ids_remapped [[(0 : Int), 1, 2, -1, -1]] (by decide)⟩

/-! ### C3: routing weights are a softmax over the top-k logits only -/

lemma length_insertDesc (p : ℚ × Nat) (l : List (ℚ × Nat)) :
    (insertDesc p l).length = l.length + 1 := by
  induction l with
  | nil => rfl
  | cons q rest ih =>
    unfold insertDesc
    by_cases h : q.1 ≤ p.1
    · rw [if_pos h]; rfl
    · rw [if_neg h]; simp [ih]

lemma length_sortTopkDesc (l : List (ℚ × Nat)) :
    (sortTopkDesc l).length = l.length := by
  induction l with
  | nil => rfl
  | cons p rest ih => unfold sortTopkDesc; rw [length_insertDesc, ih]; rfl

lemma topk_ne_nil {k : Nat} {xs : List ℚ} (hk : 1 ≤ k) (hxs : xs ≠ []) :
    topk k xs ≠ [] := by
  apply List.ne_nil_of_length_pos
  unfold topk
  rw [List.length_take, length_sortTopkDesc, List.length_map, List.enum_length]
  have hlen : 0 < xs.length := List.length_pos.mpr hxs
  omega

lemma sum_map_div (l : List ℚ) (f : ℚ → ℚ) (c : ℚ) :
    (l.map (fun v => f v / c)).sum = (l.map f).sum / c := by
  induction l with
  | nil => simp
  | cons x rest ih => simp [ih, add_div]

lemma softmax_sum_eq_one {rexp : ℚ → ℚ} (hexp : ∀ q, 0 < rexp q)
    {xs : List ℚ} (hxs : xs ≠ []) : (softmax rexp xs).sum = 1 := by
  unfold softmax
  rw [sum_map_div]
  have hpos : 0 < (xs.map rexp).sum := by
    apply List.sum_pos
    · intro v hv
      rw [List.mem_map] at hv
      obtain ⟨q, _, hq⟩ := hv
      rw [← hq]; exact hexp q
    · simpa using hxs
  exact div_self (ne_of_gt hpos)

lemma softmax_nonneg {rexp : ℚ → ℚ} (hexp : ∀ q, 0 < rexp q) (xs : List ℚ) :
    ∀ w ∈ softmax rexp xs, 0 ≤ w := by
  intro w hw
  unfold softmax at hw
  rw [List.mem_map] at hw
  obtain ⟨q, _, hq⟩ := hw
  rw [← hq]
  refine div_nonneg (le_of_lt (hexp q)) ?_
  apply List.sum_nonneg
  intro v hv
  rw [List.mem_map] at hv
  obtain ⟨r, _, hr⟩ := hv
  rw [← hr]; exact le_of_lt (hexp r)

lemma getD_range_map {α : Type} (n e : Nat) (f : Nat → α) (d : α) (he : e < n) :
    ((List.range n).map f).getD e d = f e := by
  rw [List.getD_eq_getElem?_getD, List.getElem?_map, List.getElem?_range he]
  rfl

/-- C3: for every token, the routing weights are the softmax of the top-k
router logits only: they are nonnegative, they sum to exactly 1 over the
selected experts, and a non-selected expert receives no weight at all — the
dispatcher gathers zero rows for it from this token (truncation to top-k
happens before the softmax, so unselected experts get weight exactly 0,
not a small positive one). -/
theorem router_probabilities_normalized (rexp : ℚ → ℚ)
    (router : List (List ℚ)) (k : Nat) (x : V)
    (hexp : ∀ q, 0 < rexp q) (hk : 1 ≤ k) (hrouter : router ≠ []) :
    (∀ w ∈ (computeRouterProbabilities rexp router k x).1, 0 ≤ w) ∧
    (computeRouterProbabilities rexp router k x).1.sum = 1 ∧
    (∀ e, e < router.length →
      (computeRouterProbabilities rexp router k x).2.contains e = false →
      (dispatchTokens [x] [(computeRouterProbabilities rexp router k x).1]
          [(computeRouterProbabilities rexp router k x).2]
          router.length).getD e [] = []) := by
  have hlogits : matvec router x ≠ [] := by
    unfold matvec
    simpa using hrouter
  have htk : topk k (matvec router x) ≠ [] := topk_ne_nil hk hlogits
  refine ⟨?_, ?_, ?_⟩
  · exact softmax_nonneg hexp _
  · exact softmax_sum_eq_one hexp (by simpa using htk)
  · intro e he hce
    unfold dispatchTokens
    rw [getD_range_map _ _ _ _ he]
    unfold dispatchExpert expertMask
    simp only [List.map_cons, List.map_nil, hce]
    rfl

/-- Witness for C3 at a concrete router, top-k and token. -/
theorem router_probabilities_normalized_witness :
    (∀ q : ℚ, 0 < (fun _ : ℚ => (1 : ℚ)) q) ∧ 1 ≤ 2 ∧ ([[(1 : ℚ)], [0]] : List (List ℚ)) ≠ [] ∧
    ((∀ w ∈ (computeRouterProbabilities (fun _ => 1) [[(1 : ℚ)], [0]] 2 [1]).1, 0 ≤ w) ∧
     (computeRouterProbabilities (fun _ => 1) [[(1 : ℚ)], [0]] 2 [1]).1.sum = 1 ∧
     (∀ e, e < ([[(1 : ℚ)], [0]] : List (List ℚ)).length →
       (computeRouterProbabilities (fun _ => 1) [[(1 : ℚ)], [0]] 2 [1]).2.contains e = false →
       (dispatchTokens [[1]] [(computeRouterProbabilities (fun _ => 1) [[(1 : ℚ)], [0]] 2 [1]).1]
           [(computeRouterProbabilities (fun _ => 1) [[(1 : ℚ)], [0]] 2 [1]).2]
           ([[(1 : ℚ)], [0]] : List (List ℚ)).length).getD e [] = [])) :=
  ⟨fun _ => one_pos, by norm_num, by simp,
    router_probabilities_normalized (fun _ => 1) [[(1 : ℚ)], [0]] 2 [1]
      (fun _ => one_pos) (by norm_num) (by simp)⟩

/-! ### C2: the causal mask built from position ids -/

/-- Modelled from the spec words of claim C2: `mask[i][j]` should be true iff
`j ≤ i` and no index `t` with `position_ids[t] == 0` lies in the half-open
range `(j, i]`.  (Boolean, ranging over the indices of the vector.) -/
def specMask (position_ids : List Int) (i j : Nat) : Bool :=
  decide (j ≤ i) &&
    (List.range position_ids.length).all (fun t =>
      !(decide (j < t) && decide (t ≤ i) && decide (position_ids.getD t 1 = 0)))

lemma foldl_fillTril (ps : List (Nat × Nat)) (m0 : Nat → Nat → Bool) (i j : Nat) :
    (ps.foldl (fun m p => fillTril m p.1 p.2) m0) i j =
      if ∃ p ∈ ps, p.1 ≤ i ∧ i < p.2 ∧ p.1 ≤ j ∧ j < p.2 then decide (j ≤ i)
      else m0 i j := by
  induction ps generalizing m0 with
  | nil => simp
  | cons q ps ih =>
    rw [List.foldl_cons, ih]
    by_cases h1 : ∃ p ∈ ps, p.1 ≤ i ∧ i < p.2 ∧ p.1 ≤ j ∧ j < p.2
    · have hall : ∃ p ∈ q :: ps, p.1 ≤ i ∧ i < p.2 ∧ p.1 ≤ j ∧ j < p.2 := by
        obtain ⟨p, hp, hc⟩ := h1
        exact ⟨p, List.mem_cons_of_mem q hp, hc⟩
      rw [if_pos h1, if_pos hall]
    · rw [if_neg h1]
      unfold fillTril
      by_cases h2 : q.1 ≤ i ∧ i < q.2 ∧ q.1 ≤ j ∧ j < q.2
      · rw [if_pos h2, if_pos ⟨q, List.mem_cons_self q ps, h2⟩]
      · rw [if_neg h2, if_neg ?_]
        rintro ⟨p, hp, hc⟩
        rcases List.mem_cons.mp hp with rfl | hp'
        · exact h2 hc
        · exact h1 ⟨p, hp', hc⟩

lemma mem_startIndices (position_ids : List Int) (t : Nat) :
    t ∈ startIndices position_ids ↔
      t < position_ids.length ∧ position_ids.getD t 1 = 0 := by
  unfold startIndices
  rw [List.mem_filter, List.mem_range, decide_eq_true_eq]

lemma startIndices_sorted (position_ids : List Int) :
    List.Pairwise (· < ·) (startIndices position_ids) :=
  List.Pairwise.sublist (List.filter_sublist _)
    (List.pairwise_lt_range position_ids.length)

lemma cuSeqlens_sorted (position_ids : List Int) :
    List.Pairwise (· < ·) (cuSeqlens position_ids) := by
  unfold cuSeqlens
  rw [List.pairwise_append]
  refine ⟨startIndices_sorted position_ids, List.pairwise_singleton _ _, ?_⟩
  intro a ha b hb
  rw [List.mem_singleton] at hb
  subst hb
  exact ((mem_startIndices position_ids a).mp ha).1

lemma pairs_no_between : ∀ (cu : List Nat), List.Pairwise (· < ·) cu →
    ∀ p ∈ cu.zip cu.tail, ∀ c ∈ cu, p.1 < c → c < p.2 → False := by
  intro cu
  induction cu with
  | nil => intro _ p hp; cases hp
  | cons x rest ih =>
    intro hsorted p hp c hc h1 h2
    obtain ⟨pa, pb⟩ := p
    rw [List.pairwise_cons] at hsorted
    obtain ⟨hx, hrest⟩ := hsorted
    match rest, hp with
    | y :: rest2, hp =>
      rcases List.mem_cons.mp hp with heq | hp'
      · -- p = (x, y), the head pair
        rw [Prod.mk.injEq] at heq
        obtain ⟨rfl, rfl⟩ := heq
        rcases List.mem_cons.mp hc with rfl | hc'
        · exact absurd h1 (lt_irrefl c)
        · rcases List.mem_cons.mp hc' with rfl | hc2
          · exact absurd h2 (lt_irrefl c)
          · exact absurd h2 (not_lt.mpr (le_of_lt ((List.pairwise_cons.mp hrest).1 c hc2)))
      · -- p is a pair of the tail
        rcases List.mem_cons.mp hc with rfl | hc'
        · have hp1 : pa ∈ y :: rest2 := (List.of_mem_zip hp').1
          exact absurd (lt_trans h1 (hx pa hp1)) (lt_irrefl pa)
        · exact ih hrest (pa, pb) hp' c hc' h1 h2

lemma pairs_cover : ∀ (cu : List Nat), List.Pairwise (· < ·) cu →
    ∀ i j : Nat, (∃ a ∈ cu, a ≤ j) → (∀ c ∈ cu, ¬(j < c ∧ c ≤ i)) →
    (∃ b ∈ cu, i < b) → j ≤ i →
    ∃ p ∈ cu.zip cu.tail, p.1 ≤ j ∧ i < p.2 := by
  intro cu
  induction cu with
  | nil => intro _ i j ha; obtain ⟨a, ha, _⟩ := ha; cases ha
  | cons x rest ih =>
    intro hsorted i j ha hno hb hji
    rw [List.pairwise_cons] at hsorted
    obtain ⟨hx, hrest⟩ := hsorted
    by_cases hxj : x ≤ j
    · match rest with
      | [] =>
        obtain ⟨b, hbmem, hbi⟩ := hb
        rw [List.mem_singleton] at hbmem
        subst hbmem
        omega
      | y :: rest2 =>
        by_cases hiy : i < y
        · exact ⟨(x, y), List.mem_cons_self _ _, hxj, hiy⟩
        · have hyi : y ≤ i := not_lt.mp hiy
          have hyj : y ≤ j := by
            have := hno y (List.mem_cons_of_mem x (List.mem_cons_self y rest2))
            omega
          have hb' : ∃ b ∈ y :: rest2, i < b := by
            obtain ⟨b, hbmem, hbi⟩ := hb
            rcases List.mem_cons.mp hbmem with rfl | hbmem'
            · omega
            · exact ⟨b, hbmem', hbi⟩
          obtain ⟨p, hp, hc⟩ := ih hrest i j ⟨y, List.mem_cons_self y rest2, hyj⟩
            (fun c hc => hno c (List.mem_cons_of_mem x hc)) hb' hji
          exact ⟨p, List.mem_cons_of_mem (x, y) hp, hc⟩
    · exfalso
      obtain ⟨a, hamem, haj⟩ := ha
      rcases List.mem_cons.mp hamem with rfl | hamem'
      · exact hxj haj
      · exact hxj (le_of_lt (lt_of_lt_of_le (hx a hamem') haj))

/-- Corrected mask characterization used below: `mask[i][j]` is true iff
`j ≤ i`, some position-zero boundary lies at or before `j`, and no
position-zero boundary lies in `(j, i]`. -/
lemma attentionMask_true_iff (position_ids : List Int) (i j : Nat)
    (hi : i < position_ids.length) :
    attentionMask position_ids i j = true ↔
      (j ≤ i ∧ (∃ t, t ≤ j ∧ position_ids.getD t 1 = 0) ∧
        (∀ t, j < t → t ≤ i → position_ids.getD t 1 ≠ 0)) := by
  unfold attentionMask
  rw [foldl_fillTril]
  have hsorted := cuSeqlens_sorted position_ids
  constructor
  · intro h
    by_cases hcond : ∃ p ∈ (cuSeqlens position_ids).zip (cuSeqlens position_ids).tail,
        p.1 ≤ i ∧ i < p.2 ∧ p.1 ≤ j ∧ j < p.2
    · rw [if_pos hcond, decide_eq_true_eq] at h
      obtain ⟨p, hp, hpi, hip, hpj, hjp⟩ := hcond
      obtain ⟨pa, pb⟩ := p
      have hp1cu : pa ∈ cuSeqlens position_ids := (List.of_mem_zip hp).1
      have hp1start : pa ∈ startIndices position_ids := by
        unfold cuSeqlens at hp1cu
        rcases List.mem_append.mp hp1cu with hmem | hmem
        · exact hmem
        · rw [List.mem_singleton] at hmem
          omega
      refine ⟨h, ⟨pa, hpj, ((mem_startIndices position_ids pa).mp hp1start).2⟩, ?_⟩
      intro t hjt hti hzero
      have htstart : t ∈ startIndices position_ids :=
        (mem_startIndices position_ids t).mpr ⟨lt_of_le_of_lt hti hi, hzero⟩
      have htcu : t ∈ cuSeqlens position_ids := by
        unfold cuSeqlens
        exact List.mem_append_left _ htstart
      exact pairs_no_between _ hsorted (pa, pb) hp t htcu (lt_of_le_of_lt hpj hjt)
        (lt_of_le_of_lt hti hip)
    · rw [if_neg hcond] at h
      cases h
  · rintro ⟨hji, ⟨t0, ht0j, ht0zero⟩, hno⟩
    have ht0start : t0 ∈ startIndices position_ids :=
      (mem_startIndices position_ids t0).mpr ⟨by omega, ht0zero⟩
    have hcover := pairs_cover _ hsorted i j
      ⟨t0, by unfold cuSeqlens; exact List.mem_append_left _ ht0start, ht0j⟩
      (by
        intro c hc
        unfold cuSeqlens at hc
        rcases List.mem_append.mp hc with hmem | hmem
        · intro ⟨hjc, hci⟩
          exact hno c hjc hci ((mem_startIndices position_ids c).mp hmem).2
        · rw [List.mem_singleton] at hmem
          omega)
      ⟨position_ids.length, by unfold cuSeqlens; simp, hi⟩ hji
    obtain ⟨p, hp, hpj, hip⟩ := hcover
    rw [if_pos ⟨p, hp, by omega, hip, hpj, by omega⟩]
    exact decide_eq_true hji

/-- C2 counterexample: for `position_ids = [1]` (a document starting at a
nonzero position, which the claim's quantification over "every position-id
vector" admits) the code's mask has `mask[0][0] = false` — token 0 lies
before the first position-zero boundary, so it belongs to no block — while
the claim's characterization (`j ≤ i` and no zero boundary in `(j, i]`)
requires `mask[0][0] = true`. -/
theorem attention_mask_claim_counterexample :
    attentionMask [1] 0 0 ≠ specMask [1] 0 0 := by decide

/-- C2 (amended): for every position-id vector, `mask[i][j]` is true iff
`j ≤ i`, at least one position-zero boundary lies at or before `j`, and no
index `t` with `position_ids[t] = 0` lies in `(j, i]` (when the vector
starts with position 0 — e.g. any batch whose first token starts a document
or is padding — the extra conjunct is always satisfied and the claim's
original characterization holds).  Moreover `cu_seqlens` is exactly the
strictly increasing list of position-zero boundary offsets followed by the
total length. -/
theorem attention_mask_block_diagonal (position_ids : List Int) (i j : Nat)
    (hi : i < position_ids.length) :
    (attentionMask position_ids i j = true ↔
      (j ≤ i ∧ (∃ t, t ≤ j ∧ position_ids.getD t 1 = 0) ∧
        (∀ t, j < t → t ≤ i → position_ids.getD t 1 ≠ 0))) ∧
    cuSeqlens position_ids = startIndices position_ids ++ [position_ids.length] ∧
    (∀ t, t ∈ startIndices position_ids ↔
      (t < position_ids.length ∧ position_ids.getD t 1 = 0)) ∧
    List.Pairwise (· < ·) (cuSeqlens position_ids) :=
  ⟨attentionMask_true_iff position_ids i j hi, rfl,
    fun t => mem_startIndices position_ids t, cuSeqlens_sorted position_ids⟩

/-- Witness for C2 (amended) at `position_ids = [0, 1, 0, 1]`, `i = 1`,
`j = 0`. -/
theorem attention_mask_block_diagonal_witness :
    (1 < ([(0 : Int), 1, 0, 1] : List Int).length) ∧
    ((attentionMask [(0 : Int), 1, 0, 1] 1 0 = true ↔
      (0 ≤ 1 ∧ (∃ t, t ≤ 0 ∧ ([(0 : Int), 1, 0, 1] : List Int).getD t 1 = 0) ∧
        (∀ t, 0 < t → t ≤ 1 → ([(0 : Int), 1, 0, 1] : List Int).getD t 1 ≠ 0))) ∧
     cuSeqlens [(0 : Int), 1, 0, 1] =
       startIndices [(0 : Int), 1, 0, 1] ++ [([(0 : Int), 1, 0, 1] : List Int).length] ∧
     (∀ t, t ∈ startIndices [(0 : Int), 1, 0, 1] ↔
       (t < ([(0 : Int), 1, 0, 1] : List Int).length ∧
         ([(0 : Int), 1, 0, 1] : List Int).getD t 1 = 0)) ∧
     List.Pairwise (· < ·) (cuSeqlens [(0 : Int), 1, 0, 1])) :=
  ⟨by decide, attention_mask_block_diagonal [(0 : Int), 1, 0, 1] 1 0 (by decide)⟩

/-! ### MoE structural lemmas (shared by C1, C5, C8) -/

lemma zip_self_eq_map {α : Type} (l : List α) :
    l.zip l = l.map (fun x => (x, x)) := by
  induction l with
  | nil => rfl
  | cons x xs ih => simp [List.zip_cons_cons, ih]

lemma scatterAddRows_nil_ys : ∀ (ms : List Bool) (acc : List V),
    scatterAddRows ms acc [] = acc := by
  intro ms
  induction ms with
  | nil => intro acc; rfl
  | cons m ms ih =>
    intro acc
    match acc, m with
    | [], true => rfl
    | [], false => rfl
    | a :: acc, true => simp only [scatterAddRows, ih]
    | a :: acc, false => simp only [scatterAddRows, ih]

lemma zipWith_fst_of_le {α β : Type} :
    ∀ (l1 : List α) (l2 : List β), l1.length ≤ l2.length →
    List.zipWith (fun a _ => a) l1 l2 = l1 := by
  intro l1
  induction l1 with
  | nil => intro l2 _; rfl
  | cons x xs ih =>
    intro l2 hlen
    match l2 with
    | [] => simp at hlen
    | y :: ys =>
      simp only [List.zipWith_cons_cons]
      rw [ih ys (by simpa using hlen)]

lemma zipWith_zipWith_fuse {α β γ δ : Type} (f : γ → β → δ) (g : α → β → γ) :
    ∀ (l1 : List α) (l2 : List β),
    List.zipWith f (List.zipWith g l1 l2) l2 =
      List.zipWith (fun a b => f (g a b) b) l1 l2 := by
  intro l1
  induction l1 with
  | nil => intro l2; rfl
  | cons x xs ih =>
    intro l2
    match l2 with
    | [] => rfl
    | y :: ys => simp only [List.zipWith_cons_cons, ih]

lemma zipWith_map_map {α β γ δ : Type} (f : β → γ → δ) (g1 : α → β) (g2 : α → γ)
    (l : List α) :
    List.zipWith f (l.map g1) (l.map g2) = l.map (fun x => f (g1 x) (g2 x)) := by
  induction l with
  | nil => rfl
  | cons x xs ih => simp only [List.map_cons, List.zipWith_cons_cons, ih]

lemma zip_map_pair {α β γ : Type} (f1 : α → β) (f2 : α → γ) (l : List α) :
    l.zip ((l.map f1).zip (l.map f2)) = l.map (fun x => (x, f1 x, f2 x)) := by
  induction l with
  | nil => rfl
  | cons x xs ih =>
    simp only [List.map_cons, List.zip_cons_cons, ih]

lemma foldl_congr_mem {α β : Type} :
    ∀ (l : List β) (f g : α → β → α) (a : α),
    (∀ acc : α, ∀ e ∈ l, f acc e = g acc e) → l.foldl f a = l.foldl g a := by
  intro l
  induction l with
  | nil => intro f g a _; rfl
  | cons x xs ih =>
    intro f g a h
    simp only [List.foldl_cons]
    rw [h a x (List.mem_cons_self x xs)]
    exact ih f g (g a x) (fun acc e he => h acc e (List.mem_cons_of_mem x he))

lemma contains_eq_firstSlot_isSome : ∀ (idx : List Nat) (e : Nat),
    idx.contains e = (firstSlot idx e).isSome := by
  intro idx e
  induction idx with
  | nil => rfl
  | cons a rest ih =>
    unfold firstSlot
    by_cases h : a = e
    · subst h
      simp [List.contains_cons]
    · rw [if_neg h, List.contains_cons]
      have hne : (e == a) = false := beq_eq_false_iff_ne.mpr (fun hc => h hc.symm)
      rw [hne, Bool.false_or, ih]
      cases firstSlot rest e <;> rfl

lemma maskGather_all_false {α : Type} : ∀ (ms : List Bool) (xs : List α),
    (∀ m ∈ ms, m = false) → maskGather ms xs = [] := by
  intro ms
  induction ms with
  | nil => intro xs _; rfl
  | cons m ms ih =>
    intro xs hall
    have hm : m = false := hall m (List.mem_cons_self m ms)
    subst hm
    match xs with
    | [] => rfl
    | x :: xs => exact ih xs (fun b hb => hall b (List.mem_cons_of_mem _ hb))

lemma expertMask_cons (idx : List Nat) (ri : List (List Nat)) (e : Nat) :
    expertMask (idx :: ri) e = idx.contains e :: expertMask ri e := rfl

lemma dispatchExpert_cons_none (x : V) (hs : List V) (w : List ℚ)
    (rw : List (List ℚ)) (idx : List Nat) (ri : List (List Nat)) (e : Nat)
    (hslot : firstSlot idx e = none) :
    dispatchExpert (x :: hs) (w :: rw) (idx :: ri) e = dispatchExpert hs rw ri e := by
  have hcont : idx.contains e = false := by
    rw [contains_eq_firstSlot_isSome, hslot]; rfl
  unfold dispatchExpert expertWeights
  rw [expertMask_cons, hcont, List.zip_cons_cons, List.filterMap_cons, hslot]
  rfl

lemma dispatchExpert_cons_some (x : V) (hs : List V) (w : List ℚ)
    (rw : List (List ℚ)) (idx : List Nat) (ri : List (List Nat)) (e s : Nat)
    (hslot : firstSlot idx e = some s) :
    dispatchExpert (x :: hs) (w :: rw) (idx :: ri) e =
      smulV (w.getD s 0) x :: dispatchExpert hs rw ri e := by
  have hcont : idx.contains e = true := by
    rw [contains_eq_firstSlot_isSome, hslot]; rfl
  unfold dispatchExpert expertWeights
  rw [expertMask_cons, hcont, List.zip_cons_cons, List.filterMap_cons, hslot]
  rfl

/-- Per-expert gather/compute/scatter collapse: scattering the expert's
outputs back into the accumulator adds, at each token that selected the
expert, the expert MLP applied to the weight-scaled row, and leaves every
other token untouched. -/
lemma scatter_dispatch_eq (act : ℚ → ℚ) (mw : MLPWeights) (e : Nat) :
    ∀ (hs : List V) (rw : List (List ℚ)) (ri : List (List Nat)) (acc : List V),
    rw.length = hs.length → ri.length = hs.length → acc.length = hs.length →
    scatterAddRows (expertMask ri e) acc
        ((dispatchExpert hs rw ri e).map (mlpForward act mw)) =
      List.zipWith (fun a t =>
        match firstSlot t.2.2 e with
        | some s => vadd a (mlpForward act mw (smulV (t.2.1.getD s 0) t.1))
        | none => a) acc (hs.zip (rw.zip ri)) := by
  intro hs
  induction hs with
  | nil =>
    intro rw ri acc h1 h2 h3
    rw [List.length_nil, List.length_eq_zero] at h1 h2 h3
    subst h1; subst h2; subst h3
    rfl
  | cons x hs ih =>
    intro rw ri acc h1 h2 h3
    match rw, ri, acc with
    | [], _, _ => simp at h1
    | _ :: _, [], _ => simp at h2
    | _ :: _, _ :: _, [] => simp at h3
    | w :: rw, idx :: ri, a :: acc =>
      have h1' : rw.length = hs.length := by simpa using h1
      have h2' : ri.length = hs.length := by simpa using h2
      have h3' : acc.length = hs.length := by simpa using h3
      simp only [List.zip_cons_cons, List.zipWith_cons_cons]
      cases hslot : firstSlot idx e with
      | none =>
        have hcont : idx.contains e = false := by
          rw [contains_eq_firstSlot_isSome, hslot]; rfl
        rw [dispatchExpert_cons_none x hs w rw idx ri e hslot, expertMask_cons, hcont]
        simp only [hslot]
        show a :: scatterAddRows (expertMask ri e) acc
            ((dispatchExpert hs rw ri e).map (mlpForward act mw)) = _
        rw [ih rw ri acc h1' h2' h3']
      | some s =>
        have hcont : idx.contains e = true := by
          rw [contains_eq_firstSlot_isSome, hslot]; rfl
        rw [dispatchExpert_cons_some x hs w rw idx ri e s hslot, expertMask_cons,
          hcont, List.map_cons]
        simp only [hslot]
        show vadd a (mlpForward act mw (smulV (w.getD s 0) x)) ::
            scatterAddRows (expertMask ri e) acc
              ((dispatchExpert hs rw ri e).map (mlpForward act mw)) = _
        rw [ih rw ri acc h1' h2' h3']

lemma range_map_enum {α : Type} (g : Nat → α) (n : Nat) :
    ((List.range n).map g).enum = (List.range n).map (fun e => (e, g e)) := by
  rw [List.enum_eq_zip_range, List.length_map, List.length_range,
    List.zip_map_right, zip_self_eq_map, List.map_map]
  rfl

lemma expertOutputs_dispatch (act : ℚ → ℚ) (es : List MLPWeights) (hs : List V)
    (rw : List (List ℚ)) (ri : List (List Nat)) (n : Nat) :
    expertOutputs act es (dispatchTokens hs rw ri n) =
      (List.range n).map (fun e =>
        if (dispatchExpert hs rw ri e).isEmpty then []
        else (dispatchExpert hs rw ri e).map (mlpForward act (es.getD e default))) := by
  unfold expertOutputs dispatchTokens
  rw [range_map_enum, List.map_map]
  rfl

lemma combine_as_range_fold (act : ℚ → ℚ) (es : List MLPWeights) (hs : List V)
    (rw : List (List ℚ)) (ri : List (List Nat)) (n : Nat) :
    combineExpertOutputs (expertOutputs act es (dispatchTokens hs rw ri n)) ri hs =
      (List.range n).foldl (fun acc e =>
        scatterAddRows (expertMask ri e) acc
          ((dispatchExpert hs rw ri e).map (mlpForward act (es.getD e default))))
        (hs.map vzeroLike) := by
  unfold combineExpertOutputs
  rw [expertOutputs_dispatch, range_map_enum, List.foldl_map]
  apply foldl_congr_mem
  intro acc e _
  by_cases hd : (dispatchExpert hs rw ri e).isEmpty
  · have hnil : dispatchExpert hs rw ri e = [] := List.isEmpty_iff.mp hd
    simp [hnil, scatterAddRows_nil_ys]
  · have hmapne : ((dispatchExpert hs rw ri e).map
        (mlpForward act (es.getD e default))).isEmpty = false := by
      cases hcase : dispatchExpert hs rw ri e with
      | nil => rw [hcase] at hd; exact absurd rfl hd
      | cons y ys => rfl
    rw [if_neg hd]
    simp only [hmapne, Bool.false_eq_true, if_false]

lemma range_fold_scatter_eq (act : ℚ → ℚ) (es : List MLPWeights) :
    ∀ (n : Nat) (hs : List V) (rw : List (List ℚ)) (ri : List (List Nat))
      (acc : List V),
    rw.length = hs.length → ri.length = hs.length → acc.length = hs.length →
    (List.range n).foldl (fun acc e =>
        scatterAddRows (expertMask ri e) acc
          ((dispatchExpert hs rw ri e).map (mlpForward act (es.getD e default)))) acc
      = List.zipWith (fun a t =>
          (List.range n).foldl (fun a e =>
            match firstSlot t.2.2 e with
            | some s => vadd a (mlpForward act (es.getD e default)
                (smulV (t.2.1.getD s 0) t.1))
            | none => a) a) acc (hs.zip (rw.zip ri)) := by
  intro n
  induction n with
  | zero =>
    intro hs rw ri acc h1 h2 h3
    simp only [List.range_zero, List.foldl_nil]
    exact (zipWith_fst_of_le acc _ (by simp [List.length_zip, h1, h2, h3])).symm
  | succ n ihn =>
    intro hs rw ri acc h1 h2 h3
    rw [List.range_succ, List.foldl_append, List.foldl_cons, List.foldl_nil,
      ihn hs rw ri acc h1 h2 h3,
      scatter_dispatch_eq act (es.getD n default) n hs rw ri _ h1 h2
        (by
          rw [List.length_zipWith, List.length_zip, List.length_zip, h1, h2, h3]
          simp),
      zipWith_zipWith_fuse]
    simp only [List.range_succ, List.foldl_append, List.foldl_cons, List.foldl_nil]

/-- Per-token form of the routed-experts pipeline produced by
`_dispatch_tokens` / expert compute / `_combine_expert_outputs`: for each
token, the sum over exactly the experts that token selected of the expert
MLP applied to the routing-weight-scaled hidden state (the accumulation
runs over experts in index order, matching the source's loop). -/
def tokenCombine (act : ℚ → ℚ) (es : List MLPWeights) (x : V) (w : List ℚ)
    (idx : List Nat) : V :=
  (List.range es.length).foldl (fun a e =>
    match firstSlot idx e with
    | some s => vadd a (mlpForward act (es.getD e default) (smulV (w.getD s 0) x))
    | none => a) (vzeroLike x)

/-- The dispatched/combined MoE output, token by token. -/
lemma moe_combine_eq (act : ℚ → ℚ) (es : List MLPWeights) (hs : List V)
    (f1 : V → List ℚ) (f2 : V → List Nat) :
    combineExpertOutputs
        (expertOutputs act es (dispatchTokens hs (hs.map f1) (hs.map f2) es.length))
        (hs.map f2) hs =
      hs.map (fun x => tokenCombine act es x (f1 x) (f2 x)) := by
  rw [combine_as_range_fold,
    range_fold_scatter_eq act es es.length hs (hs.map f1) (hs.map f2) (hs.map vzeroLike)
      (List.length_map hs f1) (List.length_map hs f2) (List.length_map hs vzeroLike),
    zip_map_pair, zipWith_map_map]
  rfl

/-! ### C1: combined MoE output, token by token -/

/-- Modelled from the spec words of claim C1 (for comparison with the code):
each token's combined output should be the weighted sum of the outputs of
exactly the experts the token selected — the sum over selected experts `e`
of `w_e * expert_e(x)`, the routing weight scaling the expert's *output*
computed on the unscaled hidden state. -/
def specTokenCombination (act : ℚ → ℚ) (es : List MLPWeights) (x : V)
    (w : List ℚ) (idx : List Nat) : V :=
  (List.range es.length).foldl (fun a e =>
    match firstSlot idx e with
    | some s => vadd a (smulV (w.getD s 0) (mlpForward act (es.getD e default) x))
    | none => a) (vzeroLike x)

/-- Concrete exponential used in counterexamples/witnesses: the constant 1.
At the router logits arising below all logits are 0, where the true
`exp` also takes the value 1, so the resulting softmax weights coincide
with the real ones. -/
def cexp : ℚ → ℚ := fun _ => 1

/-- Concrete activation: the identity (`ACT2FN["linear"]`). -/
def cact : ℚ → ℚ := fun q => q

/-- Concrete 1-dimensional expert MLP: with the identity activation it
computes `x ↦ x²`, so it is not homogeneous — scaling its input is not the
same as scaling its output. -/
def cMLP : MLPWeights := ⟨[[1], [1]], [[1]]⟩

/-- Concrete MoE layer: 2 experts, `top_k = 2`, router weights all zero
(both logits 0, so both experts are selected with weight 1/2 each),
shared expert disabled. -/
def cMoE : MoELayer := ⟨[[0], [0]], 2, [cMLP, cMLP], false, cMLP, [[0]]⟩

/-- C1 counterexample: on the single token `[1]`, both experts are selected
with weight `1/2`; the code computes `expert(w * x)` and returns
`(1/2)² + (1/2)² = 1/2`, while the claim's weighted sum of expert outputs
`w₀·expert(x) + w₁·expert(x)` equals `1/2 + 1/2 = 1`.  The routing weights
scale the experts' *inputs* in `_dispatch_tokens`, not their outputs. -/
theorem moe_weighted_sum_counterexample :
    moeCoreForward cexp cact cMoE [[(1 : ℚ)]] ≠
      [specTokenCombination cact cMoE.experts [(1 : ℚ)]
        (computeRouterProbabilities cexp cMoE.router cMoE.num_experts_per_token
          [(1 : ℚ)]).1
        (computeRouterProbabilities cexp cMoE.router cMoE.num_experts_per_token
          [(1 : ℚ)]).2] := by
  have hprobs : computeRouterProbabilities cexp [[0], [0]] 2 [(1 : ℚ)] =
      ([1/2, 1/2], [0, 1]) := by
    norm_num [computeRouterProbabilities, cexp, matvec, dot, topk,
      sortTopkDesc, insertDesc, softmax, List.enum, List.enumFrom]
  have h1 : moeCoreForward cexp cact cMoE [[(1 : ℚ)]] = [[1/2]] := by
    norm_num [moeCoreForward, hprobs, cact, cMoE, cMLP, dispatchTokens,
      dispatchExpert, expertMask, expertWeights, maskGather, firstSlot,
      expertOutputs, combineExpertOutputs, scatterAddRows, mlpForward, matvec,
      dot, smulV, vadd, vzeroLike, List.range_succ, List.enum, List.enumFrom,
      Option.some_ne_none]
    norm_num [scatterAddRows, vadd, firstSlot, mlpForward, matvec, dot, smulV,
      List.filterMap_cons, List.filterMap_nil, cact]
  have h2 : specTokenCombination cact cMoE.experts [(1 : ℚ)]
      (computeRouterProbabilities cexp cMoE.router cMoE.num_experts_per_token
        [(1 : ℚ)]).1
      (computeRouterProbabilities cexp cMoE.router cMoE.num_experts_per_token
        [(1 : ℚ)]).2 = [1] := by
    norm_num [specTokenCombination, hprobs, cact, cMoE, cMLP, firstSlot,
      mlpForward, matvec, dot, smulV, vadd, vzeroLike, List.range_succ]
  rw [h1, h2]
  intro hcontra
  have := List.head_eq_of_cons_eq hcontra
  have := List.head_eq_of_cons_eq this
  norm_num at this

/-- C1 (amended): with the shared expert disabled, every token's combined
MoE output equals the sum, over exactly the experts that token selected in
its top-k, of the expert applied to the routing-weight-scaled hidden state
— `Σ expert_e(w_e · x)` over selected `e`.  (The routing weight multiplies
the expert's input in `_dispatch_tokens`, not its output; non-selected
experts contribute nothing.) -/
theorem moe_output_expert_of_scaled_input (rexp act : ℚ → ℚ) (L : MoELayer)
    (hs : List V) (hshared : L.enable_shared_expert = false) :
    moeCoreForward rexp act L hs = hs.map (fun x =>
      tokenCombine act L.experts x
        (computeRouterProbabilities rexp L.router L.num_experts_per_token x).1
        (computeRouterProbabilities rexp L.router L.num_experts_per_token x).2) := by
  simp only [moeCoreForward, hshared, Bool.false_eq_true, if_false, List.map_map]
  exact moe_combine_eq act L.experts hs _ _

/-- Witness for C1 (amended) at the concrete MoE layer and batch. -/
theorem moe_output_expert_of_scaled_input_witness :
    cMoE.enable_shared_expert = false ∧
    moeCoreForward cexp cact cMoE [[(1 : ℚ)], [2]] =
      ([[(1 : ℚ)], [2]] : List V).map (fun x =>
        tokenCombine cact cMoE.experts x
          (computeRouterProbabilities cexp cMoE.router cMoE.num_experts_per_token x).1
          (computeRouterProbabilities cexp cMoE.router cMoE.num_experts_per_token x).2) :=
  ⟨rfl, moe_output_expert_of_scaled_input cexp cact cMoE [[(1 : ℚ)], [2]] rfl⟩

/-! ### C5: an expert with zero routed tokens is skipped and contributes
nothing -/

/-- C5: if no token's top-k selects expert `e`, the dispatcher hands it an
empty list, the compute loop short-circuits it to an empty output (the MLP
runs on nothing), and the combined output is what it would be with that
expert's feed-forward replaced by any other — the skipped expert's weights
never influence the result, and no error arises (the model is a total
function). -/
theorem moe_empty_expert_skipped (rexp act : ℚ → ℚ) (L : MoELayer) (hs : List V)
    (e : Nat) (g : MLPWeights) (he : e < L.experts.length)
    (hempty : ∀ x ∈ hs,
      (computeRouterProbabilities rexp L.router L.num_experts_per_token x).2.contains e
        = false) :
    moeCoreForward rexp act L hs =
      moeCoreForward rexp act { L with experts := L.experts.set e g } hs ∧
    (dispatchTokens hs
        ((hs.map (computeRouterProbabilities rexp L.router L.num_experts_per_token)).map
          Prod.fst)
        ((hs.map (computeRouterProbabilities rexp L.router L.num_experts_per_token)).map
          Prod.snd)
        L.experts.length).getD e [] = [] ∧
    (expertOutputs act L.experts
        (dispatchTokens hs
          ((hs.map (computeRouterProbabilities rexp L.router L.num_experts_per_token)).map
            Prod.fst)
          ((hs.map (computeRouterProbabilities rexp L.router L.num_experts_per_token)).map
            Prod.snd)
          L.experts.length)).getD e [] = [] := by
  have hmaskfalse : ∀ m ∈ expertMask
      ((hs.map (computeRouterProbabilities rexp L.router L.num_experts_per_token)).map
        Prod.snd) e, m = false := by
    intro m hm
    unfold expertMask at hm
    rw [List.map_map, List.map_map, List.mem_map] at hm
    obtain ⟨x, hx, hm⟩ := hm
    rw [← hm]
    exact hempty x hx
  have hdisp : dispatchExpert hs
      ((hs.map (computeRouterProbabilities rexp L.router L.num_experts_per_token)).map
        Prod.fst)
      ((hs.map (computeRouterProbabilities rexp L.router L.num_experts_per_token)).map
        Prod.snd) e = [] := by
    unfold dispatchExpert
    rw [maskGather_all_false _ _ hmaskfalse]
    rfl
  have hslotnone : ∀ x ∈ hs,
      firstSlot (computeRouterProbabilities rexp L.router L.num_experts_per_token x).2 e
        = none := by
    intro x hx
    have hc := hempty x hx
    rw [contains_eq_firstSlot_isSome] at hc
    cases hcase : firstSlot
        (computeRouterProbabilities rexp L.router L.num_experts_per_token x).2 e with
    | none => rfl
    | some s => rw [hcase] at hc; simp at hc
  refine ⟨?_, ?_, ?_⟩
  · have htoken : ∀ x ∈ hs,
        tokenCombine act L.experts x
          (computeRouterProbabilities rexp L.router L.num_experts_per_token x).1
          (computeRouterProbabilities rexp L.router L.num_experts_per_token x).2 =
        tokenCombine act (L.experts.set e g) x
          (computeRouterProbabilities rexp L.router L.num_experts_per_token x).1
          (computeRouterProbabilities rexp L.router L.num_experts_per_token x).2 := by
      intro x hx
      unfold tokenCombine
      rw [List.length_set]
      apply foldl_congr_mem
      intro acc e' _
      by_cases heq : e' = e
      · subst heq
        rw [hslotnone x hx]
      · have hget : (L.experts.set e g).getD e' default =
            L.experts.getD e' default := by
          rw [List.getD_eq_getElem?_getD, List.getD_eq_getElem?_getD,
            List.getElem?_set_ne (fun hc => heq hc.symm)]
        rw [hget]
    simp only [moeCoreForward, List.map_map]
    rw [moe_combine_eq, moe_combine_eq]
    have hmap : hs.map (fun x =>
        tokenCombine act L.experts x
          ((Prod.fst ∘ computeRouterProbabilities rexp L.router L.num_experts_per_token) x)
          ((Prod.snd ∘ computeRouterProbabilities rexp L.router L.num_experts_per_token) x)) =
      hs.map (fun x =>
        tokenCombine act (L.experts.set e g) x
          ((Prod.fst ∘ computeRouterProbabilities rexp L.router L.num_experts_per_token) x)
          ((Prod.snd ∘ computeRouterProbabilities rexp L.router L.num_experts_per_token) x)) :=
      List.map_congr_left (fun x hx => htoken x hx)
    rw [hmap]
  · unfold dispatchTokens
    rw [getD_range_map _ _ _ _ he]
    exact hdisp
  · rw [expertOutputs_dispatch, getD_range_map _ _ _ _ he, hdisp]
    rfl

/-- Concrete MoE layer for the C5 witness: 3 experts, `top_k = 2`, router
logits `[1, 1, 0]` on the token below, so expert 2 is never selected. -/
def cMoE3 : MoELayer := ⟨[[1], [1], [0]], 2, [cMLP, cMLP, cMLP], false, cMLP, [[0]]⟩

/-- Witness for C5: expert 2 of `cMoE3` receives zero tokens on the batch
`[[1]]`; its MLP may be replaced by the zero MLP without changing anything. -/
theorem moe_empty_expert_skipped_witness :
    (2 < cMoE3.experts.length) ∧
    (∀ x ∈ [[(1 : ℚ)]],
      (computeRouterProbabilities cexp cMoE3.router cMoE3.num_experts_per_token x).2.contains 2
        = false) ∧
    (moeCoreForward cexp cact cMoE3 [[(1 : ℚ)]] =
      moeCoreForward cexp cact { cMoE3 with experts := cMoE3.experts.set 2 ⟨[], []⟩ }
        [[(1 : ℚ)]] ∧
    (dispatchTokens [[(1 : ℚ)]]
        (([[(1 : ℚ)]].map (computeRouterProbabilities cexp cMoE3.router
          cMoE3.num_experts_per_token)).map Prod.fst)
        (([[(1 : ℚ)]].map (computeRouterProbabilities cexp cMoE3.router
          cMoE3.num_experts_per_token)).map Prod.snd)
        cMoE3.experts.length).getD 2 [] = [] ∧
    (expertOutputs cact cMoE3.experts
        (dispatchTokens [[(1 : ℚ)]]
          (([[(1 : ℚ)]].map (computeRouterProbabilities cexp cMoE3.router
            cMoE3.num_experts_per_token)).map Prod.fst)
          (([[(1 : ℚ)]].map (computeRouterProbabilities cexp cMoE3.router
            cMoE3.num_experts_per_token)).map Prod.snd)
          cMoE3.experts.length)).getD 2 [] = []) := by
  have hsel : ∀ x ∈ [[(1 : ℚ)]],
      (computeRouterProbabilities cexp cMoE3.router cMoE3.num_experts_per_token x).2.contains 2
        = false := by
    intro x hx
    rw [List.mem_singleton] at hx
    subst hx
    norm_num [computeRouterProbabilities, cexp, cMoE3, matvec, dot, topk,
      sortTopkDesc, insertDesc, softmax, List.enum, List.enumFrom]
  exact ⟨by norm_num [cMoE3], hsel,
    moe_empty_expert_skipped cexp cact cMoE3 [[(1 : ℚ)]] 2 ⟨[], []⟩
      (by norm_num [cMoE3]) hsel⟩

/-! ### C8: the shared-expert contribution is additive and gated in [0, 1] -/

/-- C8: when the shared expert is enabled, the MoE output is the base
routed-experts combined output plus, token-wise,
`sigmoid(shared_expert_gate(x)) * shared_expert(x)` — a purely additive
contribution whose gate lies in `[0, 1]`; with the flag off, the output is
exactly the base routed-experts combined output. -/
theorem moe_shared_expert_additive (rexp act : ℚ → ℚ) (L : MoELayer)
    (hs : List V) (hexp : ∀ q, 0 < rexp q) :
    (L.enable_shared_expert = true →
      moeCoreForward rexp act L hs =
        List.zipWith (fun o x =>
          vadd o (smulV (sigmoid rexp ((matvec L.shared_expert_gate x).getD 0 0))
            (mlpForward act L.shared_expert x)))
          (moeCoreForward rexp act { L with enable_shared_expert := false } hs) hs) ∧
    (∀ x : V, 0 ≤ sigmoid rexp ((matvec L.shared_expert_gate x).getD 0 0) ∧
      sigmoid rexp ((matvec L.shared_expert_gate x).getD 0 0) ≤ 1) ∧
    (L.enable_shared_expert = false →
      moeCoreForward rexp act L hs =
        combineExpertOutputs
          (expertOutputs act L.experts
            (dispatchTokens hs
              ((hs.map (computeRouterProbabilities rexp L.router
                L.num_experts_per_token)).map Prod.fst)
              ((hs.map (computeRouterProbabilities rexp L.router
                L.num_experts_per_token)).map Prod.snd)
              L.experts.length))
          ((hs.map (computeRouterProbabilities rexp L.router
            L.num_experts_per_token)).map Prod.snd) hs) := by
  refine ⟨?_, ?_, ?_⟩
  · intro h
    simp only [moeCoreForward, h, if_true, Bool.false_eq_true, if_false]
  · intro x
    have hd : 0 < 1 + rexp (-((matvec L.shared_expert_gate x).getD 0 0)) :=
      add_pos one_pos (hexp _)
    unfold sigmoid
    constructor
    · exact div_nonneg zero_le_one (le_of_lt hd)
    · rw [div_le_one hd]
      exact le_add_of_nonneg_right (le_of_lt (hexp _))
  · intro h
    simp only [moeCoreForward, h, Bool.false_eq_true, if_false]

/-- Concrete MoE layer with the shared expert enabled, for the C8 witness. -/
def cMoEshared : MoELayer := ⟨[[0], [0]], 2, [cMLP, cMLP], true, cMLP, [[0]]⟩

/-- Witness for C8 at a concrete shared-expert layer and batch. -/
theorem moe_shared_expert_additive_witness :
    (∀ q : ℚ, 0 < cexp q) ∧
    ((cMoEshared.enable_shared_expert = true →
      moeCoreForward cexp cact cMoEshared [[(1 : ℚ)]] =
        List.zipWith (fun o x =>
          vadd o (smulV (sigmoid cexp ((matvec cMoEshared.shared_expert_gate x).getD 0 0))
            (mlpForward cact cMoEshared.shared_expert x)))
          (moeCoreForward cexp cact
            { cMoEshared with enable_shared_expert := false } [[(1 : ℚ)]]) [[(1 : ℚ)]]) ∧
    (∀ x : V, 0 ≤ sigmoid cexp ((matvec cMoEshared.shared_expert_gate x).getD 0 0) ∧
      sigmoid cexp ((matvec cMoEshared.shared_expert_gate x).getD 0 0) ≤ 1) ∧
    (cMoEshared.enable_shared_expert = false →
      moeCoreForward cexp cact cMoEshared [[(1 : ℚ)]] =
        combineExpertOutputs
          (expertOutputs cact cMoEshared.experts
            (dispatchTokens [[(1 : ℚ)]]
              (([[(1 : ℚ)]].map (computeRouterProbabilities cexp cMoEshared.router
                cMoEshared.num_experts_per_token)).map Prod.fst)
              (([[(1 : ℚ)]].map (computeRouterProbabilities cexp cMoEshared.router
                cMoEshared.num_experts_per_token)).map Prod.snd)
              cMoEshared.experts.length))
          (([[(1 : ℚ)]].map (computeRouterProbabilities cexp cMoEshared.router
            cMoEshared.num_experts_per_token)).map Prod.snd) [[(1 : ℚ)]])) :=
  ⟨fun _ => one_pos,
    moe_shared_expert_additive cexp cact cMoEshared [[(1 : ℚ)]] (fun _ => one_pos)⟩
